import Mathlib

/-!
Shallow embedding of the prefix-code engine of `src/Main.py`
(classes `Node`, `HuffmanTree`, `Encoding`, and the bit-handling part of
`Compresion.compress_image` / `Compresion.decompress_image`).

Conventions of the embedding:
* Python bit-strings of the characters 0 and 1 are modelled as `List Bool`
  (`false` for the character 0, `true` for the character 1).
* Python dicts (insertion-ordered) are modelled as association lists;
  `dictInsert` mirrors `d[k] = v` (update in place, append new keys at
  the back) and `lookupTable` mirrors `d[k]` (with `none` for `KeyError`).
* A Python run that raises an uncaught exception, or that never
  terminates, is modelled as `none`.
-/

namespace FileCompression

/-- Embedding of class `Node` (Main.py lines 8-13).  `build_tree` only ever
creates two shapes of nodes: leaves `Node(symbol, count)` with no children,
and internal nodes `Node(None, w)` with both children set; the inductive
has exactly these two shapes. -/
inductive Node (α : Type) where
  | leaf (symbol : α) (weight : Nat) : Node α
  | internal (weight : Nat) (left : Node α) (right : Node α) : Node α

deriving instance DecidableEq for Node

/-- The `weight` attribute of a node. -/
def Node.weight {α : Type} : Node α → Nat
  | .leaf _ w => w
  | .internal w _ _ => w

/-- The mutable state of a `HuffmanTree` object (Main.py lines 38-40):
`self.root = None` and `self.code_table = {}`. -/
structure HuffmanTree (α : Type) where
  root : Option (Node α)
  code_table : List (α × List Bool)

/-- One step of the frequency-counting loop of `build_tree`
(Main.py lines 43-47): `if symbol not in symbol_counts: ... += 1`.
A new key is appended at the back (dict insertion order); an existing
key is bumped in place. -/
def bumpCount {α : Type} [DecidableEq α] : List (α × Nat) → α → List (α × Nat)
  | [], s => [(s, 1)]
  | (a, n) :: rest, s =>
    if a = s then (a, n + 1) :: rest else (a, n) :: bumpCount rest s

/-- The `symbol_counts` dict of `build_tree` after the counting loop
(Main.py lines 43-47), in order of first appearance. -/
def countsOf {α : Type} [DecidableEq α] (symbols : List α) : List (α × Nat) :=
  symbols.foldl bumpCount []

/-- The keys of an association list (the dict's keys, in order). -/
def keysOf {α β : Type} (l : List (α × β)) : List α := l.map Prod.fst

/-- The merging loop of `build_tree` (Main.py lines 54-60), with an explicit
iteration count: `left = nodes.pop(0); right = nodes.pop(0);
parent = Node(None, left.weight + right.weight); nodes.append(parent)`.
Each iteration shortens the list by one, so the `while len(nodes) > 1`
loop runs exactly `length - 1` times; the catch-all arm fires only when
the list already has at most one node, which matches the loop guard. -/
def mergeIter {α : Type} : Nat → List (Node α) → List (Node α)
  | 0, l => l
  | fuel + 1, a :: b :: rest =>
    mergeIter fuel (rest ++ [Node.internal (a.weight + b.weight) a b])
  | _ + 1, l => l

/-- The whole `while len(nodes) > 1` loop of `build_tree`
(Main.py lines 54-60). -/
def mergeLoop {α : Type} (l : List (Node α)) : List (Node α) :=
  mergeIter (l.length - 1) l

/-- The root computed by `build_tree(symbols)` (Main.py lines 42-62):
leaves in first-appearance order of the counted symbols, then the merging
loop, then `nodes[0]`.  An empty input leaves `nodes` empty and `nodes[0]`
raises `IndexError`, modelled as `none`. -/
def build_root {α : Type} [DecidableEq α] (symbols : List α) : Option (Node α) :=
  (mergeLoop ((countsOf symbols).map fun p => Node.leaf p.1 p.2)).head?

/-- The method `HuffmanTree.build_tree` acting on the object state: it
overwrites `self.root` and leaves `self.code_table` untouched. -/
def build_tree {α : Type} [DecidableEq α] (t : HuffmanTree α) (symbols : List α) :
    Option (HuffmanTree α) :=
  match build_root symbols with
  | none => none
  | some r => some ⟨some r, t.code_table⟩

/-- Assignment `d[k] = v` on an insertion-ordered dict modelled as an
association list: an existing key keeps its position and gets the new
value, a new key is appended at the back. -/
def dictInsert {α β : Type} [DecidableEq α] : List (α × β) → α → β → List (α × β)
  | [], k, v => [(k, v)]
  | (a, b) :: rest, k, v =>
    if a = k then (a, v) :: rest else (a, b) :: dictInsert rest k v

/-- Embedding of `HuffmanTree._generate_code_table` (Main.py lines 68-77),
threading the `self.code_table` dict as an accumulator: a leaf binds
`self.code_table[node.symbol] = prefix`; an internal node recurses left
with prefix + "0" and then right with prefix + "1". -/
def genTableAux {α : Type} [DecidableEq α] :
    Node α → List Bool → List (α × List Bool) → List (α × List Bool)
  | .leaf s _, pre, table => dictInsert table s pre
  | .internal _ l r, pre, table =>
    genTableAux r (pre ++ [true]) (genTableAux l (pre ++ [false]) table)

/-- The method `HuffmanTree.generate_code_table` (Main.py lines 64-66):
it resets `self.code_table = {}` and repopulates it from `self.root`.
A `None` root makes `_generate_code_table` evaluate `None.left`, an
`AttributeError`, modelled as `none`. -/
def generate_code_table {α : Type} [DecidableEq α] (t : HuffmanTree α) :
    Option (HuffmanTree α) :=
  match t.root with
  | none => none
  | some r => some ⟨t.root, genTableAux r [] []⟩

/-- Dict lookup `d[k]`: the value at the unique binding of `k`, or `none`
for `KeyError`. -/
def lookupTable {α β : Type} [DecidableEq α] : List (α × β) → α → Option β
  | [], _ => none
  | (a, b) :: rest, k => if a = k then some b else lookupTable rest k

/-- Embedding of `HuffmanTree.encode` (Main.py lines 79-85): the
concatenation of `self.code_table[symbol]` over the input, `none` when a
symbol is absent from the table (`KeyError`). -/
def encodeSyms {α : Type} [DecidableEq α] (table : List (α × List Bool)) :
    List α → Option (List Bool)
  | [] => some []
  | s :: rest =>
    (lookupTable table s).bind fun c =>
      (encodeSyms table rest).map fun bs => c ++ bs

/-- The method `HuffmanTree.encode` on the object state. -/
def HuffmanTree.encode {α : Type} [DecidableEq α] (t : HuffmanTree α)
    (symbols : List α) : Option (List Bool) :=
  encodeSyms t.code_table symbols

/-- Embedding of `Encoding.adaptive_huffman_encoding` (Main.py lines
105-111): a fresh `HuffmanTree()`, then `build_tree`, then
`generate_code_table`, then `encode`; returns the encoded bits and the
code table. -/
def adaptive_huffman_encoding {α : Type} [DecidableEq α] (text : List α) :
    Option (List Bool × List (α × List Bool)) :=
  match build_tree ⟨none, []⟩ text with
  | none => none
  | some t₁ =>
    match generate_code_table t₁ with
    | none => none
    | some t₂ =>
      match t₂.encode text with
      | none => none
      | some bits => some (bits, t₂.code_table)

/-- One full pass of the inner `for character, code in code_table.items()`
loop of `Encoding.decode` (Main.py lines 116-119): scan the table entries
in order; on `encoded_message.startswith(code)` append the character and
drop the matched bits, then keep scanning the remaining entries against
the shortened message. -/
def decodePass {α : Type} [DecidableEq α] :
    List (α × List Bool) → List Bool → List α → List Bool × List α
  | [], msg, acc => (msg, acc)
  | (c, code) :: rest, msg, acc =>
    if code <+: msg then decodePass rest (msg.drop code.length) (acc ++ [c])
    else decodePass rest msg acc

/-- The outer `while encoded_message:` loop of `Encoding.decode`
(Main.py lines 115-119), fuel-indexed.  What bits a pass consumes depends
only on the table and the message, so a pass that consumes nothing repeats
identically forever in the source: that situation (and fuel exhaustion,
which cannot occur with fuel = message length, as each consuming pass
drops at least one bit of a table whose codewords are non-empty) is
modelled as `none` = the Python loop never returns. -/
def decodeLoop {α : Type} [DecidableEq α] :
    Nat → List (α × List Bool) → List Bool → List α → Option (List α)
  | _, _, [], acc => some acc
  | 0, _, _ :: _, _ => none
  | fuel + 1, table, b :: msg, acc =>
    if (decodePass table (b :: msg) acc).1.length < (b :: msg).length then
      decodeLoop fuel table (decodePass table (b :: msg) acc).1
        (decodePass table (b :: msg) acc).2
    else none

/-- Embedding of `Encoding.decode` (Main.py lines 113-120).
`some r` exactly when the Python call returns `r`; `none` when it loops
forever. -/
def decode {α : Type} [DecidableEq α] (encoded_message : List Bool)
    (code_table : List (α × List Bool)) : Option (List α) :=
  decodeLoop encoded_message.length code_table encoded_message []

/-- The 8-character binary rendering `format(byte, 08b)` of one byte
(Main.py line 155), most significant bit first. -/
def byteBits (b : Nat) : List Bool := (List.range 8).map fun i => b.testBit (7 - i)

/-- `cadena_bits` before padding (Main.py line 155): the concatenation of
the 8-bit renderings of the raw bytes. -/
def cadenaBits (binarios : List Nat) : List Bool := (binarios.map byteBits).flatten

/-- `paddinf` (Main.py line 156): `7 - len(cadena_bits) % 7` when the bit
length is not a multiple of 7, else 0. -/
def paddinf (binarios : List Nat) : Nat :=
  if (cadenaBits binarios).length % 7 ≠ 0 then 7 - (cadenaBits binarios).length % 7
  else 0

/-- `cadena_bits` after right-padding with zero bits (Main.py line 157). -/
def paddedBits (binarios : List Nat) : List Bool :=
  cadenaBits binarios ++ List.replicate (paddinf binarios) false

/-- `int(s, 2)` on a bit string. -/
def bitsToNat (l : List Bool) : Nat :=
  l.foldl (fun acc b => 2 * acc + (if b then 1 else 0)) 0

/-- The symbol sequence formed by `compress_image` (Main.py line 158):
`join(chr(int(cadena_bits[i:i+7], 2)) for i in range(0, len(binarios), 7))`.
The range is driven by `len(binarios)` - the length of the raw byte list,
not of the padded bit string - so it yields `ceil(len(binarios) / 7)`
symbols; each symbol is the value of the 7-bit slice of the padded bit
string starting at `i` (a `chr` code point, modelled as the `Nat` value). -/
def imageSymbols (binarios : List Nat) : List Nat :=
  (List.range' 0 ((binarios.length + 6) / 7) 7).map fun i =>
    bitsToNat (((paddedBits binarios).drop i).take 7)

/-- The bit handling of `decompress_image` (Main.py lines 198-201): strip
the recorded padding count off the end of the stored encoded bit string
(`decoded_text[:-padding]` when `padding > 0`), then decode. -/
def decompressImageBits {α : Type} [DecidableEq α] (bits : List Bool)
    (padding : Nat) (table : List (α × List Bool)) : Option (List α) :=
  decode (if padding > 0 then bits.take (bits.length - padding) else bits) table

/-! ### Facts about the frequency-count dict -/

theorem mem_keysOf_bumpCount {α : Type} [DecidableEq α] (acc : List (α × Nat)) (s x : α) :
    x ∈ keysOf (bumpCount acc s) ↔ x ∈ keysOf acc ∨ x = s := by
  induction acc with
  | nil => simp [bumpCount, keysOf]
  | cons p rest ih =>
    obtain ⟨a, n⟩ := p
    by_cases h : a = s
    · subst h
      simp [bumpCount, keysOf]
      tauto
    · simp [bumpCount, h, keysOf] at ih ⊢
      tauto

theorem keysOf_cons {α β : Type} (a : α) (b : β) (rest : List (α × β)) :
    keysOf ((a, b) :: rest) = a :: keysOf rest := rfl

theorem keysOf_bumpCount_of_mem {α : Type} [DecidableEq α] (acc : List (α × Nat))
    (s : α) (h : s ∈ keysOf acc) : keysOf (bumpCount acc s) = keysOf acc := by
  induction acc with
  | nil => simp [keysOf] at h
  | cons p rest ih =>
    obtain ⟨a, n⟩ := p
    by_cases ha : a = s
    · subst ha
      simp [bumpCount, keysOf_cons]
    · rw [keysOf_cons, List.mem_cons] at h
      rcases h with h | h
      · exact absurd h.symm ha
      · simp only [bumpCount, if_neg ha, keysOf_cons, ih h]

theorem keysOf_bumpCount_of_not_mem {α : Type} [DecidableEq α] (acc : List (α × Nat))
    (s : α) (h : s ∉ keysOf acc) : keysOf (bumpCount acc s) = keysOf acc ++ [s] := by
  induction acc with
  | nil => simp [bumpCount, keysOf]
  | cons p rest ih =>
    obtain ⟨a, n⟩ := p
    rw [keysOf_cons, List.mem_cons] at h
    push_neg at h
    simp only [bumpCount, if_neg (Ne.symm h.1), keysOf_cons, ih h.2, List.cons_append]

theorem nodup_keysOf_bumpCount {α : Type} [DecidableEq α] (acc : List (α × Nat))
    (s : α) (h : (keysOf acc).Nodup) : (keysOf (bumpCount acc s)).Nodup := by
  by_cases hm : s ∈ keysOf acc
  · rw [keysOf_bumpCount_of_mem acc s hm]
    exact h
  · rw [keysOf_bumpCount_of_not_mem acc s hm]
    simp [List.nodup_append, h, hm]

theorem mem_keysOf_foldl_bump {α : Type} [DecidableEq α] :
    ∀ (S : List α) (acc : List (α × Nat)) (x : α),
      x ∈ keysOf (S.foldl bumpCount acc) ↔ x ∈ keysOf acc ∨ x ∈ S := by
  intro S
  induction S with
  | nil => simp
  | cons s S ih =>
    intro acc x
    rw [List.foldl_cons, ih, mem_keysOf_bumpCount]
    simp
    tauto

theorem nodup_keysOf_foldl_bump {α : Type} [DecidableEq α] :
    ∀ (S : List α) (acc : List (α × Nat)), (keysOf acc).Nodup →
      (keysOf (S.foldl bumpCount acc)).Nodup := by
  intro S
  induction S with
  | nil => intro acc h; exact h
  | cons s S ih =>
    intro acc h
    rw [List.foldl_cons]
    exact ih _ (nodup_keysOf_bumpCount acc s h)

theorem mem_keysOf_countsOf {α : Type} [DecidableEq α] (S : List α) (x : α) :
    x ∈ keysOf (countsOf S) ↔ x ∈ S := by
  rw [countsOf, mem_keysOf_foldl_bump]
  simp [keysOf]

theorem nodup_keysOf_countsOf {α : Type} [DecidableEq α] (S : List α) :
    (keysOf (countsOf S)).Nodup :=
  nodup_keysOf_foldl_bump S [] (by simp [keysOf])

theorem two_le_length_of_two_mem {α : Type} {l : List α} {a b : α}
    (ha : a ∈ l) (hb : b ∈ l) (hne : a ≠ b) : 2 ≤ l.length := by
  match l with
  | [] => simp at ha
  | [x] =>
    simp at ha hb
    subst ha
    subst hb
    exact absurd rfl hne
  | x :: y :: t => simp [List.length_cons]

/-! ### Facts about the merging loop -/

theorem mergeIter_small {α : Type} :
    ∀ (fuel : Nat) (l : List (Node α)), l.length ≤ 1 → mergeIter fuel l = l := by
  intro fuel l h
  match fuel, l with
  | 0, l => rfl
  | f + 1, [] => rfl
  | f + 1, [a] => rfl
  | f + 1, a :: b :: t => simp [List.length_cons] at h

theorem mergeLoop_two_step {α : Type} (a b : Node α) (rest : List (Node α)) :
    mergeLoop (a :: b :: rest) =
      mergeLoop (rest ++ [Node.internal (a.weight + b.weight) a b]) := by
  simp [mergeLoop, mergeIter, List.length_cons, List.length_append]

theorem mergeIter_result {α : Type} :
    ∀ (fuel : Nat) (l : List (Node α)), l.length ≤ fuel + 1 → l ≠ [] →
      ∃ n, mergeIter fuel l = [n] := by
  intro fuel
  induction fuel with
  | zero =>
    intro l hl hne
    match l with
    | [a] => exact ⟨a, rfl⟩
    | a :: b :: t => simp [List.length_cons] at hl
  | succ f ih =>
    intro l hl hne
    match l with
    | [a] => exact ⟨a, rfl⟩
    | a :: b :: t =>
      have hlen : (t ++ [Node.internal (a.weight + b.weight) a b]).length ≤ f + 1 := by
        simp [List.length_cons] at hl ⊢
        omega
      have := ih (t ++ [Node.internal (a.weight + b.weight) a b]) hlen (by simp)
      simpa [mergeIter] using this

theorem mergeIter_internal {α : Type} :
    ∀ (fuel : Nat) (l : List (Node α)), l.length ≤ fuel + 1 → 2 ≤ l.length →
      ∃ w t₁ t₂, mergeIter fuel l = [Node.internal w t₁ t₂] := by
  intro fuel
  induction fuel with
  | zero =>
    intro l hl h2
    omega
  | succ f ih =>
    intro l hl h2
    match l with
    | a :: b :: t =>
      match t with
      | [] =>
        refine ⟨a.weight + b.weight, a, b, ?_⟩
        show mergeIter f ([] ++ [Node.internal (a.weight + b.weight) a b]) = _
        rw [List.nil_append]
        exact mergeIter_small f _ (by simp)
      | c :: t' =>
        have hlen : ((c :: t') ++ [Node.internal (a.weight + b.weight) a b]).length ≤ f + 1 := by
          simp [List.length_cons] at hl ⊢
          omega
        have h2' : 2 ≤ ((c :: t') ++ [Node.internal (a.weight + b.weight) a b]).length := by
          simp [List.length_cons]
        have := ih _ hlen h2'
        simpa [mergeIter] using this

/-- The symbols at the leaves of a node, left to right. -/
def leafList {α : Type} : Node α → List α
  | .leaf s _ => [s]
  | .internal _ l r => leafList l ++ leafList r

/-- The symbols at the leaves of a work list of nodes. -/
def leavesList {α : Type} : List (Node α) → List α
  | [] => []
  | n :: rest => leafList n ++ leavesList rest

theorem leavesList_append {α : Type} :
    ∀ (l₁ l₂ : List (Node α)), leavesList (l₁ ++ l₂) = leavesList l₁ ++ leavesList l₂ := by
  intro l₁ l₂
  induction l₁ with
  | nil => simp [leavesList]
  | cons n rest ih => simp [leavesList, ih]

theorem mem_leavesList_mergeIter {α : Type} :
    ∀ (fuel : Nat) (l : List (Node α)) (x : α),
      x ∈ leavesList (mergeIter fuel l) ↔ x ∈ leavesList l := by
  intro fuel
  induction fuel with
  | zero => intro l x; rfl
  | succ f ih =>
    intro l x
    match l with
    | [] => rfl
    | [a] => rfl
    | a :: b :: t =>
      show x ∈ leavesList (mergeIter f (t ++ [Node.internal (a.weight + b.weight) a b])) ↔ _
      rw [ih, leavesList_append]
      simp [leavesList, leafList]
      tauto

theorem leavesList_map_leaf {α : Type} (cs : List (α × Nat)) :
    leavesList (cs.map fun p => Node.leaf p.1 p.2) = keysOf cs := by
  induction cs with
  | nil => rfl
  | cons p rest ih => simp [leavesList, leafList, keysOf, ih]

/-- Weight consistency: every internal node weighs the sum of its two
weights of the two children. -/
def Node.consistent {α : Type} : Node α → Bool
  | .leaf _ _ => true
  | .internal w l r => (w == l.weight + r.weight) && l.consistent && r.consistent

theorem mergeIter_consistent {α : Type} :
    ∀ (fuel : Nat) (l : List (Node α)), (∀ n ∈ l, Node.consistent n = true) →
      ∀ n ∈ mergeIter fuel l, Node.consistent n = true := by
  intro fuel
  induction fuel with
  | zero => intro l h; exact h
  | succ f ih =>
    intro l h
    match l with
    | [] => exact h
    | [a] => exact h
    | a :: b :: t =>
      show ∀ n ∈ mergeIter f (t ++ [Node.internal (a.weight + b.weight) a b]), _
      refine ih _ ?_
      intro n hn
      rcases List.mem_append.1 hn with hn | hn
      · exact h n (by simp [hn])
      · simp at hn
        subst hn
        have ha := h a (by simp)
        have hb := h b (by simp)
        simp [Node.consistent, ha, hb]

/-! ### Facts about the code table -/

/-- The (symbol, codeword) pairs produced by the tree walk of
`_generate_code_table`, as a plain left-to-right list, ignoring the
dict-overwrite semantics of repeated symbols. -/
def simpleTable {α : Type} : Node α → List Bool → List (α × List Bool)
  | .leaf s _, pre => [(s, pre)]
  | .internal _ l r, pre =>
    simpleTable l (pre ++ [false]) ++ simpleTable r (pre ++ [true])

theorem mem_simpleTable_extends {α : Type} :
    ∀ (n : Node α) (pre : List Bool) (s : α) (c : List Bool),
      (s, c) ∈ simpleTable n pre → pre <+: c := by
  intro n
  induction n with
  | leaf sym w =>
    intro pre s c h
    simp [simpleTable] at h
    exact h.2 ▸ List.prefix_rfl
  | internal w l r ihl ihr =>
    intro pre s c h
    rcases List.mem_append.1 h with h | h
    · exact (List.prefix_append pre [false]).trans (ihl _ _ _ h)
    · exact (List.prefix_append pre [true]).trans (ihr _ _ _ h)

theorem prefixComparable {α : Type} {l₁ l₂ l₃ : List α}
    (h₁ : l₁ <+: l₃) (h₂ : l₂ <+: l₃) : l₁ <+: l₂ ∨ l₂ <+: l₁ := by
  exact List.prefix_or_prefix_of_prefix h₁ h₂

theorem simpleTable_inj {α : Type} :
    ∀ (n : Node α) (pre : List Bool) (a : α) (c : List Bool) (b : α) (d : List Bool),
      (a, c) ∈ simpleTable n pre → (b, d) ∈ simpleTable n pre → c <+: d →
      a = b ∧ c = d := by
  intro n
  induction n with
  | leaf sym w =>
    intro pre a c b d ha hb hcd
    simp [simpleTable] at ha hb
    exact ⟨ha.1.trans hb.1.symm, ha.2.trans hb.2.symm⟩
  | internal w l r ihl ihr =>
    intro pre a c b d ha hb hcd
    rcases List.mem_append.1 ha with ha' | ha' <;> rcases List.mem_append.1 hb with hb' | hb'
    · exact ihl _ _ _ _ _ ha' hb' hcd
    · exfalso
      have hc : pre ++ [false] <+: c := mem_simpleTable_extends _ _ _ _ ha'
      have hd : pre ++ [true] <+: d := mem_simpleTable_extends _ _ _ _ hb'
      rcases prefixComparable (hc.trans hcd) hd with h | h <;>
        rw [List.prefix_append_right_inj] at h <;> simp [List.cons_prefix_cons] at h
    · exfalso
      have hc : pre ++ [true] <+: c := mem_simpleTable_extends _ _ _ _ ha'
      have hd : pre ++ [false] <+: d := mem_simpleTable_extends _ _ _ _ hb'
      rcases prefixComparable (hc.trans hcd) hd with h | h <;>
        rw [List.prefix_append_right_inj] at h <;> simp [List.cons_prefix_cons] at h
    · exact ihr _ _ _ _ _ ha' hb' hcd

theorem mem_dictInsert_elim {α β : Type} [DecidableEq α] :
    ∀ (acc : List (α × β)) (k : α) (v : β) (e : α × β),
      e ∈ dictInsert acc k v → e ∈ acc ∨ e = (k, v) := by
  intro acc k v
  induction acc with
  | nil =>
    intro e he
    simp only [dictInsert, List.mem_singleton] at he
    exact Or.inr he
  | cons p rest ih =>
    obtain ⟨a, b⟩ := p
    intro e he
    by_cases ha : a = k
    · subst ha
      simp [dictInsert, List.mem_cons] at he
      rcases he with he | he
      · right; simp [he]
      · left; exact List.mem_cons_of_mem _ he
    · simp only [dictInsert, if_neg ha, List.mem_cons] at he
      rcases he with he | he
      · left; simp [he]
      · rcases ih e he with h | h
        · left; exact List.mem_cons_of_mem _ h
        · right; exact h

theorem mem_keysOf_dictInsert {α β : Type} [DecidableEq α] :
    ∀ (acc : List (α × β)) (k : α) (v : β) (x : α),
      x ∈ keysOf acc ∨ x = k → x ∈ keysOf (dictInsert acc k v) := by
  intro acc k v
  induction acc with
  | nil =>
    intro x hx
    rcases hx with h | h
    · simp [keysOf] at h
    · simp [dictInsert, keysOf, h]
  | cons p rest ih =>
    obtain ⟨a, b⟩ := p
    intro x hx
    by_cases ha : a = k
    · subst ha
      have hstep : dictInsert ((a, b) :: rest) a v = (a, v) :: rest := by
        simp [dictInsert]
      rw [hstep, keysOf_cons]
      rcases hx with h | h
      · rwa [keysOf_cons] at h
      · simp [h]
    · simp only [dictInsert, if_neg ha, keysOf_cons, List.mem_cons]
      rcases hx with h | h
      · rw [keysOf_cons, List.mem_cons] at h
        rcases h with h | h
        · exact Or.inl h
        · exact Or.inr (ih x (Or.inl h))
      · exact Or.inr (ih x (Or.inr h))

theorem mem_genTableAux_elim {α : Type} [DecidableEq α] :
    ∀ (n : Node α) (pre : List Bool) (acc : List (α × List Bool)) (e : α × List Bool),
      e ∈ genTableAux n pre acc → e ∈ acc ∨ e ∈ simpleTable n pre := by
  intro n
  induction n with
  | leaf s w =>
    intro pre acc e he
    simp only [genTableAux] at he
    rcases mem_dictInsert_elim acc s pre e he with h | h
    · exact Or.inl h
    · right; simp [simpleTable, h]
  | internal w l r ihl ihr =>
    intro pre acc e he
    simp only [genTableAux] at he
    rcases ihr _ _ _ he with h | h
    · rcases ihl _ _ _ h with h' | h'
      · exact Or.inl h'
      · right; exact List.mem_append.2 (Or.inl h')
    · right; exact List.mem_append.2 (Or.inr h)

theorem mem_keysOf_genTableAux {α : Type} [DecidableEq α] :
    ∀ (n : Node α) (pre : List Bool) (acc : List (α × List Bool)) (x : α),
      x ∈ keysOf acc ∨ x ∈ leafList n → x ∈ keysOf (genTableAux n pre acc) := by
  intro n
  induction n with
  | leaf s w =>
    intro pre acc x hx
    simp only [genTableAux]
    refine mem_keysOf_dictInsert acc s pre x ?_
    rcases hx with h | h
    · exact Or.inl h
    · right; simpa [leafList] using h
  | internal w l r ihl ihr =>
    intro pre acc x hx
    simp only [genTableAux]
    refine ihr _ _ _ ?_
    rcases hx with h | h
    · exact Or.inl (ihl _ _ _ (Or.inl h))
    · rcases List.mem_append.1 (by simpa [leafList] using h) with h' | h'
      · exact Or.inl (ihl _ _ _ (Or.inr h'))
      · exact Or.inr h'

theorem lookupTable_mem {α β : Type} [DecidableEq α] :
    ∀ (l : List (α × β)) (k : α) (v : β), lookupTable l k = some v → (k, v) ∈ l := by
  intro l
  induction l with
  | nil =>
    intro k v h
    simp [lookupTable] at h
  | cons p rest ih =>
    obtain ⟨a, b⟩ := p
    intro k v h
    by_cases ha : a = k
    · subst ha
      simp [lookupTable] at h
      subst h
      exact List.mem_cons_self _ _
    · simp only [lookupTable, if_neg ha] at h
      exact List.mem_cons_of_mem _ (ih k v h)

theorem lookupTable_isSome {α β : Type} [DecidableEq α] :
    ∀ (l : List (α × β)) (k : α), k ∈ keysOf l → ∃ v, lookupTable l k = some v := by
  intro l
  induction l with
  | nil =>
    intro k h
    simp [keysOf] at h
  | cons p rest ih =>
    obtain ⟨a, b⟩ := p
    intro k h
    by_cases ha : a = k
    · exact ⟨b, by simp [lookupTable, ha]⟩
    · rw [keysOf_cons, List.mem_cons] at h
      rcases h with h | h
      · exact absurd h.symm ha
      · obtain ⟨v, hv⟩ := ih k h
        exact ⟨v, by simp [lookupTable, ha, hv]⟩

/-- The two properties of a code table that make the front-scanning decode
loop unambiguous: every codeword is non-empty, and a codeword that is a
string-prefix of another can only be the same entry. -/
def GoodTable {α : Type} (table : List (α × List Bool)) : Prop :=
  (∀ p ∈ table, p.2 ≠ ([] : List Bool)) ∧
  (∀ p q, p ∈ table → q ∈ table → p.2 <+: q.2 → p = q)

theorem goodTable_internal {α : Type} [DecidableEq α] (w : Nat) (l r : Node α) :
    GoodTable (genTableAux (Node.internal w l r) [] []) := by
  constructor
  · intro p hp
    rcases mem_genTableAux_elim _ _ _ _ hp with h | h
    · simp at h
    · obtain ⟨a, c⟩ := p
      rcases List.mem_append.1 (by simpa [simpleTable] using h) with h' | h'
      · have hpre := mem_simpleTable_extends _ _ _ _ h'
        intro hc
        have hc' : c = [] := hc
        rw [hc', List.prefix_nil] at hpre
        simp at hpre
      · have hpre := mem_simpleTable_extends _ _ _ _ h'
        intro hc
        have hc' : c = [] := hc
        rw [hc', List.prefix_nil] at hpre
        simp at hpre
  · intro p q hp hq hpre
    obtain ⟨a, c⟩ := p
    obtain ⟨b, d⟩ := q
    rcases mem_genTableAux_elim _ _ _ _ hp with h | h
    · simp at h
    rcases mem_genTableAux_elim _ _ _ _ hq with h' | h'
    · simp at h'
    have := simpleTable_inj _ _ _ _ _ _ h h' hpre
    simp [this.1, this.2]

/-! ### Facts about encode -/

theorem encodeSyms_cons_elim {α : Type} [DecidableEq α] (table : List (α × List Bool))
    (s : α) (rest : List α) (msg : List Bool)
    (h : encodeSyms table (s :: rest) = some msg) :
    ∃ c m, lookupTable table s = some c ∧ encodeSyms table rest = some m ∧
      msg = c ++ m := by
  simp only [encodeSyms, Option.bind_eq_some, Option.map_eq_some'] at h
  obtain ⟨c, hc, m, hm, hmsg⟩ := h
  exact ⟨c, m, hc, hm, hmsg.symm⟩

theorem encodeSyms_intro {α : Type} [DecidableEq α] (table : List (α × List Bool))
    (s : α) (rest : List α) (c : List Bool) (m : List Bool)
    (hc : lookupTable table s = some c) (hm : encodeSyms table rest = some m) :
    encodeSyms table (s :: rest) = some (c ++ m) := by
  simp [encodeSyms, hc, hm]

theorem encodeSyms_append_elim {α : Type} [DecidableEq α] (table : List (α × List Bool)) :
    ∀ (L₁ L₂ : List α) (msg : List Bool),
      encodeSyms table (L₁ ++ L₂) = some msg →
      ∃ b₁ b₂, encodeSyms table L₁ = some b₁ ∧ encodeSyms table L₂ = some b₂ ∧
        msg = b₁ ++ b₂ := by
  intro L₁
  induction L₁ with
  | nil =>
    intro L₂ msg h
    exact ⟨[], msg, rfl, h, by simp⟩
  | cons s L ih =>
    intro L₂ msg h
    rw [List.cons_append] at h
    obtain ⟨c, m, hc, hm, hmsg⟩ := encodeSyms_cons_elim _ _ _ _ h
    obtain ⟨b₁, b₂, h1, h2, h3⟩ := ih _ _ hm
    refine ⟨c ++ b₁, b₂, encodeSyms_intro _ _ _ _ _ hc h1, h2, ?_⟩
    rw [hmsg, h3, List.append_assoc]

theorem encodeSyms_total {α : Type} [DecidableEq α] (table : List (α × List Bool)) :
    ∀ (L : List α), (∀ s ∈ L, s ∈ keysOf table) → ∃ m, encodeSyms table L = some m := by
  intro L
  induction L with
  | nil => exact fun _ => ⟨[], rfl⟩
  | cons s L ih =>
    intro h
    obtain ⟨c, hc⟩ := lookupTable_isSome table s (h s (by simp))
    obtain ⟨m, hm⟩ := ih (fun x hx => h x (by simp [hx]))
    exact ⟨c ++ m, encodeSyms_intro _ _ _ _ _ hc hm⟩

theorem encodeSyms_nil_elim {α : Type} [DecidableEq α] (table : List (α × List Bool))
    (hG : GoodTable table) :
    ∀ (L : List α), encodeSyms table L = some [] → L = [] := by
  intro L h
  match L with
  | [] => rfl
  | s :: rest =>
    obtain ⟨c, m, hc, hm, hmsg⟩ := encodeSyms_cons_elim _ _ _ _ h
    have hmem := lookupTable_mem _ _ _ hc
    have hne := hG.1 _ hmem
    exact absurd (List.append_eq_nil.mp hmsg.symm).1 hne

/-! ### Correctness of the decode scan over a well-formed table -/

theorem decodePass_spec {α : Type} [DecidableEq α] (table : List (α × List Bool))
    (hG : GoodTable table) :
    ∀ (T : List (α × List Bool)), (∀ e ∈ T, e ∈ table) →
    ∀ (L : List α) (msg : List Bool) (acc : List α),
      encodeSyms table L = some msg →
      ∃ L₁ L₂ msg₂,
        L = L₁ ++ L₂ ∧ encodeSyms table L₂ = some msg₂ ∧
        decodePass T msg acc = (msg₂, acc ++ L₁) ∧
        (∀ s rest c, L = s :: rest → lookupTable table s = some c →
          (s, c) ∈ T → L₁ ≠ []) := by
  intro T
  induction T with
  | nil =>
    intro _ L msg acc hEnc
    refine ⟨[], L, msg, by simp, hEnc, by simp [decodePass], ?_⟩
    intro s rest c _ _ hmem
    simp at hmem
  | cons e T' ih =>
    obtain ⟨t, code⟩ := e
    intro hT L msg acc hEnc
    have hT' : ∀ e ∈ T', e ∈ table := fun e he => hT e (List.mem_cons_of_mem _ he)
    by_cases hmatch : code <+: msg
    · cases L with
      | nil =>
        exfalso
        simp [encodeSyms] at hEnc
        rw [hEnc, List.prefix_nil] at hmatch
        exact hG.1 _ (hT _ (List.mem_cons_self _ _)) hmatch
      | cons s rest =>
        obtain ⟨cs, m', hc, hm, hmsg⟩ := encodeSyms_cons_elim _ _ _ _ hEnc
        have hsmem : (s, cs) ∈ table := lookupTable_mem _ _ _ hc
        have hcodeMem : (t, code) ∈ table := hT _ (List.mem_cons_self _ _)
        have hcs_pre : cs <+: msg := hmsg ▸ List.prefix_append cs m'
        have heq : (t, code) = (s, cs) := by
          rcases prefixComparable hmatch hcs_pre with h | h
          · exact hG.2 _ _ hcodeMem hsmem h
          · exact (hG.2 _ _ hsmem hcodeMem h).symm
        have ht : t = s := congrArg Prod.fst heq
        have hcode : code = cs := congrArg Prod.snd heq
        have hdrop : msg.drop code.length = m' := by
          rw [hcode, hmsg]
          exact List.drop_left cs m'
        obtain ⟨L₁', L₂, msg₂, hs1, hs2, hs3, _⟩ := ih hT' rest m' (acc ++ [t]) hm
        refine ⟨s :: L₁', L₂, msg₂, by simp [hs1], hs2, ?_, ?_⟩
        · show decodePass ((t, code) :: T') msg acc = _
          simp only [decodePass]
          rw [if_pos hmatch, hdrop, ht]
          rw [ht] at hs3
          rw [hs3]
          simp
        · intro s' rest' c' _ _ _
          simp
    · obtain ⟨L₁, L₂, msg₂, h1, h2, h3, h4⟩ := ih hT' L msg acc hEnc
      refine ⟨L₁, L₂, msg₂, h1, h2, ?_, ?_⟩
      · show decodePass ((t, code) :: T') msg acc = _
        simp only [decodePass]
        rw [if_neg hmatch]
        exact h3
      · intro s rest c hL hlook hmem
        rcases List.mem_cons.1 hmem with hm | hm
        · exfalso
          subst hL
          obtain ⟨cs, m', hc, hmm, hmsg⟩ := encodeSyms_cons_elim _ _ _ _ hEnc
          have hcc : c = code := congrArg Prod.snd hm
          rw [hlook] at hc
          have hceq : c = cs := Option.some.inj hc
          exact hmatch (by rw [← hcc, hceq, hmsg]; exact List.prefix_append cs m')
        · exact h4 s rest c hL hlook hm

theorem decodeLoop_correct {α : Type} [DecidableEq α] (table : List (α × List Bool))
    (hG : GoodTable table) :
    ∀ (fuel : Nat) (L : List α) (msg : List Bool) (acc : List α),
      encodeSyms table L = some msg → msg.length ≤ fuel →
      decodeLoop fuel table msg acc = some (acc ++ L) := by
  intro fuel
  induction fuel with
  | zero =>
    intro L msg acc hEnc hlen
    have hmsg : msg = [] := List.length_eq_zero.mp (Nat.le_zero.mp hlen)
    subst hmsg
    have hL : L = [] := encodeSyms_nil_elim table hG L hEnc
    subst hL
    simp [decodeLoop]
  | succ f ih =>
    intro L msg acc hEnc hlen
    cases msg with
    | nil =>
      have hL := encodeSyms_nil_elim table hG L hEnc
      subst hL
      simp [decodeLoop]
    | cons b ms =>
      cases L with
      | nil => simp [encodeSyms] at hEnc
      | cons s rest =>
        obtain ⟨L₁, L₂, msg₂, h1, h2, h3, h4⟩ :=
          decodePass_spec table hG table (fun e he => he) (s :: rest) (b :: ms) acc hEnc
        obtain ⟨cs, m', hc, hm, hmsg⟩ := encodeSyms_cons_elim _ _ _ _ hEnc
        have hL₁ : L₁ ≠ [] := h4 s rest cs rfl hc (lookupTable_mem _ _ _ hc)
        obtain ⟨b₁, b₂, k1, k2, k3⟩ := encodeSyms_append_elim table L₁ L₂ (b :: ms) (h1 ▸ hEnc)
        have hb₂ : b₂ = msg₂ := by
          rw [h2] at k2
          exact (Option.some.inj k2).symm
        have hb₁ : b₁ ≠ [] := by
          cases L₁ with
          | nil => exact absurd rfl hL₁
          | cons x L₁' =>
            obtain ⟨cx, mx, hcx, hmx, hx⟩ := encodeSyms_cons_elim _ _ _ _ k1
            have hcxne := hG.1 _ (lookupTable_mem _ _ _ hcx)
            intro hb
            rw [hb] at hx
            exact hcxne (List.append_eq_nil.mp hx.symm).1
        have hlt : msg₂.length < (b :: ms).length := by
          rw [hb₂] at k3
          have hb₁pos : 0 < b₁.length := List.length_pos.mpr hb₁
          rw [k3, List.length_append]
          omega
        have hfin := ih L₂ msg₂ (acc ++ L₁) h2 (by
          simp only [List.length_cons] at hlt hlen
          omega)
        simp only [decodeLoop, h3]
        rw [if_pos hlt]
        exact hfin.trans (congrArg some (by rw [List.append_assoc, ← h1]))

/-! ### Assembly: tables built from at least two distinct symbols -/

theorem build_root_two {α : Type} [DecidableEq α] (S : List α) (a b : α)
    (ha : a ∈ S) (hb : b ∈ S) (hab : a ≠ b) :
    ∃ w l r, build_root S = some (Node.internal w l r) := by
  have hka : a ∈ keysOf (countsOf S) := (mem_keysOf_countsOf S a).mpr ha
  have hkb : b ∈ keysOf (countsOf S) := (mem_keysOf_countsOf S b).mpr hb
  have h2 : 2 ≤ (keysOf (countsOf S)).length := two_le_length_of_two_mem hka hkb hab
  have h2' : 2 ≤ (countsOf S).length := by simpa [keysOf] using h2
  have hlen : ((countsOf S).map fun p => Node.leaf p.1 p.2).length = (countsOf S).length := by
    simp
  obtain ⟨w, t₁, t₂, hres⟩ :=
    mergeIter_internal (((countsOf S).map fun p => Node.leaf p.1 p.2).length - 1)
      ((countsOf S).map fun p => Node.leaf p.1 p.2) (by omega) (by omega)
  refine ⟨w, t₁, t₂, ?_⟩
  show (mergeLoop _).head? = _
  rw [mergeLoop, hres]
  rfl

theorem mem_leafList_build {α : Type} [DecidableEq α] (S : List α) (n : Node α)
    (hres : build_root S = some n) : ∀ s ∈ S, s ∈ leafList n := by
  intro s hs
  have hk : s ∈ keysOf (countsOf S) := (mem_keysOf_countsOf S s).mpr hs
  have hcne : countsOf S ≠ [] := by
    intro h
    rw [h] at hk
    simp [keysOf] at hk
  have hine : ((countsOf S).map fun p => Node.leaf p.1 p.2) ≠ [] := by simpa using hcne
  have hpos : 0 < ((countsOf S).map fun p => Node.leaf p.1 p.2).length :=
    List.length_pos.mpr hine
  obtain ⟨m, hm⟩ :=
    mergeIter_result (((countsOf S).map fun p => Node.leaf p.1 p.2).length - 1)
      ((countsOf S).map fun p => Node.leaf p.1 p.2) (by omega) hine
  have hmn : m = n := by
    rw [build_root, mergeLoop, hm] at hres
    simpa using hres
  subst hmn
  have hmem : s ∈ leavesList (mergeIter
      (((countsOf S).map fun p => Node.leaf p.1 p.2).length - 1)
      ((countsOf S).map fun p => Node.leaf p.1 p.2)) := by
    rw [mem_leavesList_mergeIter, leavesList_map_leaf]
    exact hk
  rw [hm] at hmem
  simpa [leavesList] using hmem

theorem table_keys_built {α : Type} [DecidableEq α] (S : List α) (n : Node α)
    (hres : build_root S = some n) : ∀ s ∈ S, s ∈ keysOf (genTableAux n [] []) := by
  intro s hs
  exact mem_keysOf_genTableAux n [] [] s (Or.inr (mem_leafList_build S n hres s hs))

/-! ### The claims -/

/-- Claim C1, amended: for every finite symbol sequence S containing at
least two distinct symbols, decoding the encoding of S with the table
derived from the tree built from S returns S exactly.  (As literally
stated - every non-empty S, alphabet size >= 1 - the claim fails on the
code for single-symbol inputs: see the counterexample theorem.) -/
theorem claim1_round_trip {α : Type} [DecidableEq α] (S : List α) (a b : α)
    (ha : a ∈ S) (hb : b ∈ S) (hab : a ≠ b) :
    ∃ bits table, adaptive_huffman_encoding S = some (bits, table) ∧
      decode bits table = some S := by
  obtain ⟨w, l, r, hroot⟩ := build_root_two S a b ha hb hab
  have hG := goodTable_internal w l r
  have hcov : ∀ s ∈ S, s ∈ keysOf (genTableAux (Node.internal w l r) [] []) :=
    table_keys_built S _ hroot
  obtain ⟨bits, hbits⟩ := encodeSyms_total _ S hcov
  refine ⟨bits, genTableAux (Node.internal w l r) [] [], ?_, ?_⟩
  · simp [adaptive_huffman_encoding, build_tree, hroot, generate_code_table,
      HuffmanTree.encode, hbits]
  · rw [decode]
    have := decodeLoop_correct _ hG bits.length S bits [] hbits (le_refl _)
    simpa using this

/-- Claim C1, counterexample to the literal statement: for the
single-symbol input [7, 7, 7] the pipeline produces the empty codeword,
encodes to the empty bit string, and decoding returns the empty sequence,
not [7, 7, 7]. -/
theorem claim1_counterexample :
    adaptive_huffman_encoding [(7 : Nat), 7, 7] = some ([], [(7, [])]) ∧
    decode ([] : List Bool) [((7 : Nat), [])] = some [] ∧
    ([] : List Nat) ≠ [7, 7, 7] := by
  refine ⟨by decide, by decide, by decide⟩

/-- Claim C1, witness for the amended round trip at the concrete input
[0, 1]. -/
theorem claim1_round_trip_witness :
    ∃ bits table, adaptive_huffman_encoding [(0 : Nat), 1] = some (bits, table) ∧
      decode bits table = some [0, 1] :=
  claim1_round_trip [(0 : Nat), 1] 0 1 (by decide) (by decide) (by decide)

/-- Claim C2: the claim says decode fails with DecodeDesyncError when the
remaining bits are non-empty and no codeword matches.  The code has no
such check: on the input bits "1" with table {0: "0"} no pass of the
while loop consumes anything, so `Encoding.decode` loops forever instead
of raising - for every iteration bound the fuel-indexed loop returns no
result, and `decode` (which models divergence as `none`) never returns. -/
theorem claim2_decode_unmatched_bits_never_returns :
    (∀ (fuel : Nat) (acc : List Nat),
      decodeLoop fuel [((0 : Nat), [false])] [true] acc = none) ∧
    decode [true] [((0 : Nat), [false])] = none := by
  constructor
  · intro fuel acc
    cases fuel with
    | zero => rfl
    | succ f =>
      have hp : decodePass [((0 : Nat), [false])] [true] acc = ([true], acc) := by
        simp [decodePass, List.cons_prefix_cons]
      simp [decodeLoop, hp]
  · decide

/-- Claim C3: the claim says a single-symbol input gets a non-empty
fallback codeword (such as "0") and the round trip still holds.  The code
has no fallback: build yields a one-leaf tree (that part of the claim is
true), but the table maps the symbol to the EMPTY codeword, the encoding
of [5, 5, 5] is the empty bit string, and decoding returns the empty
sequence, so the round trip fails. -/
theorem claim3_single_symbol_empty_codeword :
    build_root [(5 : Nat), 5, 5] = some (Node.leaf 5 3) ∧
    genTableAux (Node.leaf (5 : Nat) 3) [] [] = [(5, [])] ∧
    adaptive_huffman_encoding [(5 : Nat), 5, 5] = some ([], [(5, [])]) ∧
    decode ([] : List Bool) [((5 : Nat), [])] = some [] ∧
    some ([] : List Nat) ≠ some [5, 5, 5] := by
  refine ⟨by decide, by decide, by decide, by decide, by decide⟩

/-- Claim C4: tree construction is positional.  Conjuncts: (1) whenever
the ordered frequency snapshot starts with two entries, build merges
exactly those two front nodes into an internal node carrying the sum of
their weights and appends it at the back of the work list; (2) every node
a build produces has internal weights equal to the sum of the childrens
weights; (3) build of a non-empty input ends with exactly one node, the
root; (4) the initial leaves are exactly the distinct input symbols
(one key per distinct symbol: conjunct 5, keys without duplicates). -/
theorem claim4_positional_merge {α : Type} [DecidableEq α] :
    (∀ (S : List α) (a : α) (w₁ : Nat) (b : α) (w₂ : Nat) (rest : List (α × Nat)),
      countsOf S = (a, w₁) :: (b, w₂) :: rest →
      build_root S = (mergeLoop ((rest.map fun p => Node.leaf p.1 p.2) ++
        [Node.internal (w₁ + w₂) (Node.leaf a w₁) (Node.leaf b w₂)])).head?) ∧
    (∀ (S : List α) (n : Node α), build_root S = some n → Node.consistent n = true) ∧
    (∀ S : List α, S ≠ [] → ∃ n, build_root S = some n ∧
      mergeLoop ((countsOf S).map fun p => Node.leaf p.1 p.2) = [n]) ∧
    (∀ (S : List α) (x : α), x ∈ keysOf (countsOf S) ↔ x ∈ S) ∧
    (∀ S : List α, (keysOf (countsOf S)).Nodup) := by
  refine ⟨?_, ?_, ?_, ?_, ?_⟩
  · intro S a w₁ b w₂ rest h
    rw [build_root, h]
    simp only [List.map_cons]
    rw [mergeLoop_two_step]
    rfl
  · intro S n h
    rw [build_root] at h
    have hmem : n ∈ mergeLoop ((countsOf S).map fun p => Node.leaf p.1 p.2) := by
      cases hl : mergeLoop ((countsOf S).map fun p => Node.leaf p.1 p.2) with
      | nil =>
        rw [hl] at h
        simp at h
      | cons x xs =>
        rw [hl] at h
        simp at h
        simp [h]
    refine mergeIter_consistent _ _ ?_ n hmem
    intro m hm
    simp only [List.mem_map] at hm
    obtain ⟨p, _, hp⟩ := hm
    rw [← hp]
    rfl
  · intro S hS
    have hcne : countsOf S ≠ [] := by
      cases S with
      | nil => exact absurd rfl hS
      | cons x t =>
        intro h
        have hx := (mem_keysOf_countsOf (x :: t) x).mpr (by simp)
        rw [h] at hx
        simp [keysOf] at hx
    have hine : ((countsOf S).map fun p => Node.leaf p.1 p.2) ≠ [] := by simpa using hcne
    have hpos : 0 < ((countsOf S).map fun p => Node.leaf p.1 p.2).length :=
      List.length_pos.mpr hine
    obtain ⟨n, hn⟩ :=
      mergeIter_result (((countsOf S).map fun p => Node.leaf p.1 p.2).length - 1)
        ((countsOf S).map fun p => Node.leaf p.1 p.2) (by omega) hine
    refine ⟨n, ?_, ?_⟩
    · rw [build_root, mergeLoop, hn]
      rfl
    · rw [mergeLoop]
      exact hn
  · exact mem_keysOf_countsOf
  · exact nodup_keysOf_countsOf

/-- Claim C4, witness at the concrete input [0, 1, 1], whose frequency
snapshot is [(0, 1), (1, 2)]. -/
theorem claim4_witness :
    (build_root [(0 : Nat), 1, 1] =
      (mergeLoop ((([] : List (Nat × Nat)).map fun p => Node.leaf p.1 p.2) ++
        [Node.internal (1 + 2) (Node.leaf (0 : Nat) 1) (Node.leaf 1 2)])).head?) ∧
    ((0 : Nat) ∈ keysOf (countsOf [(0 : Nat), 1, 1]) ↔ (0 : Nat) ∈ [(0 : Nat), 1, 1]) :=
  ⟨claim4_positional_merge.1 [(0 : Nat), 1, 1] 0 1 1 2 [] (by decide),
   claim4_positional_merge.2.2.2.1 [(0 : Nat), 1, 1] 0⟩

/-- Claim C5: for every input with at least two distinct symbols, the
code table derived from the built tree is prefix-free: codewords of
distinct symbols are never string-prefixes of one another. -/
theorem claim5_table_prefix_free_codes {α : Type} [DecidableEq α] (S : List α) (a b : α)
    (ha : a ∈ S) (hb : b ∈ S) (hab : a ≠ b) (root : Node α)
    (hroot : build_root S = some root) :
    ∀ (s : α) (c : List Bool) (t : α) (d : List Bool),
      (s, c) ∈ genTableAux root [] [] → (t, d) ∈ genTableAux root [] [] →
      s ≠ t → ¬ (c <+: d) := by
  intro s c t d hs ht hst hpre
  rcases mem_genTableAux_elim _ _ _ _ hs with h | h
  · simp at h
  rcases mem_genTableAux_elim _ _ _ _ ht with h' | h'
  · simp at h'
  exact hst (simpleTable_inj _ _ _ _ _ _ h h' hpre).1

/-- Claim C5, witness at the concrete input [0, 1]: the two codewords
"0" and "1" are not prefixes of one another. -/
theorem claim5_witness : ¬ ([false] <+: [true]) :=
  claim5_table_prefix_free_codes [(0 : Nat), 1] 0 1 (by decide) (by decide) (by decide)
    (Node.internal 2 (Node.leaf 0 1) (Node.leaf 1 1)) (by decide)
    0 [false] 1 [true] (by decide) (by decide) (by decide)

/-- Claim C6: building from an empty symbol sequence fails (the code
reaches `nodes[0]` on an empty list, an uncaught IndexError, modelled as
`none`): no root is produced and the whole encoding pipeline aborts with
no output. -/
theorem claim6_empty_input_fails :
    build_root ([] : List Nat) = none ∧
    build_tree (⟨none, []⟩ : HuffmanTree Nat) [] = none ∧
    adaptive_huffman_encoding ([] : List Nat) = none :=
  ⟨rfl, rfl, rfl⟩

/-- Claim C7: the claim says the image adapter regroups the ENTIRE padded
bit stream, producing (8n + p) / 7 symbols for n raw bytes.  The code
iterates `range(0, len(binarios), 7)` over the BYTE list length, so it
produces only ceil(n / 7) symbols: for 7 raw bytes it forms 1 symbol
where the claim requires 8. -/
theorem claim7_image_symbols_undercount :
    (∀ binarios : List Nat, (imageSymbols binarios).length = (binarios.length + 6) / 7) ∧
    (imageSymbols (List.replicate 7 0)).length = 1 ∧
    paddinf (List.replicate 7 0) = 0 ∧
    (8 * 7 + paddinf (List.replicate 7 0)) / 7 = 8 := by
  refine ⟨?_, by decide, by decide, by decide⟩
  intro binarios
  simp [imageSymbols]

/-- Claim C8: the claim says decompress decodes the stored bits first and
drops the padding bits afterwards from the reconstructed stream.  The
code truncates the ENCODED bit string before decoding
(`decoded_text[:-padding]` happens before `encoding.decode`), which cuts
codewords off the compressed stream instead of removing raw padding: with
table {0: "0", 1: "1"}, bits "01" and padding 1 the code decodes only
[0], while decoding the full stream first yields [0, 1].  The recorded
padding count itself does follow the stated 7 - (bitlength mod 7)
formula. -/
theorem claim8_padding_stripped_before_decode :
    decompressImageBits [false, true] 1 [((0 : Nat), [false]), (1, [true])] = some [0] ∧
    decode [false, true] [((0 : Nat), [false]), (1, [true])] = some [0, 1] ∧
    paddinf [3] = 6 ∧
    (cadenaBits [3]).length % 7 = 1 ∧
    paddinf [0, 0, 0, 0, 0, 0, 0] = 0 := by
  refine ⟨by decide, by decide, by decide, by decide, by decide⟩

/-- Claim C9: tree construction and table derivation are deterministic:
the (root, code table) pair after build + derive depends only on the
input symbol sequence, not on any prior object state, so two runs on the
same input agree. -/
theorem claim9_deterministic_build_derive {α : Type} [DecidableEq α] :
    ∀ (t₁ t₂ : HuffmanTree α) (S : List α),
      ((build_tree t₁ S).bind generate_code_table).map
          (fun t => (t.root, t.code_table)) =
        ((build_tree t₂ S).bind generate_code_table).map
          (fun t => (t.root, t.code_table)) := by
  intro t₁ t₂ S
  cases h : build_root S with
  | none => simp [build_tree, h]
  | some r => simp [build_tree, h, generate_code_table]

/-- Claim C9, witness: two differently-initialised tree objects agree on
the input [0, 1]. -/
theorem claim9_witness :
    ((build_tree (⟨none, []⟩ : HuffmanTree Nat) [0, 1]).bind
        generate_code_table).map (fun t => (t.root, t.code_table)) =
      ((build_tree (⟨some (Node.leaf 9 1), [(3, [true])]⟩ : HuffmanTree Nat) [0, 1]).bind
        generate_code_table).map (fun t => (t.root, t.code_table)) :=
  claim9_deterministic_build_derive _ _ _

/-- Claim C10: generate_code_table is idempotent and self-resetting: it
clears the table before repopulating from the current root, so its
resulting code table depends only on the root (no stale entries persist),
and running it a second time reproduces the same object state. -/
theorem claim10_generate_code_table_fresh {α : Type} [DecidableEq α] :
    ∀ (t₁ t₂ : HuffmanTree α), t₁.root = t₂.root →
      ((generate_code_table t₁).map HuffmanTree.code_table =
        (generate_code_table t₂).map HuffmanTree.code_table) ∧
      (∀ u, generate_code_table t₁ = some u → generate_code_table u = some u) := by
  intro t₁ t₂ hroot
  constructor
  · cases h : t₁.root with
    | none =>
      have h₂ : t₂.root = none := hroot ▸ h
      simp [generate_code_table, h, h₂]
    | some r =>
      have h₂ : t₂.root = some r := hroot ▸ h
      simp [generate_code_table, h, h₂]
  · intro u hu
    cases h : t₁.root with
    | none => simp [generate_code_table, h] at hu
    | some r =>
      simp [generate_code_table, h] at hu
      rw [← hu]
      simp [generate_code_table, h]

/-- Claim C10, witness: a previously populated stale table and an empty
one give the same result, and a second run is a fixed point. -/
theorem claim10_witness :
    (((generate_code_table
        (⟨some (Node.leaf (0 : Nat) 3), [(9, [true, true])]⟩ : HuffmanTree Nat)).map
          HuffmanTree.code_table =
      (generate_code_table
        (⟨some (Node.leaf (0 : Nat) 3), []⟩ : HuffmanTree Nat)).map
          HuffmanTree.code_table)) ∧
    (∀ u, generate_code_table
        (⟨some (Node.leaf (0 : Nat) 3), [(9, [true, true])]⟩ : HuffmanTree Nat) = some u →
      generate_code_table u = some u) :=
  claim10_generate_code_table_fresh _ _ rfl

end FileCompression
